import Mathlib

/-!
Shallow embedding of `src/data_processing.py` (skip-gram data preparation):
`create_lookup_tables`, `subsample_words`, `get_target`, `get_batches`,
`cosine_similarity`, together with proofs of the specified properties.

Modelling conventions:
* Python `dict`s built by comprehensions are modelled as association lists
  (key/value pair lists in build order) read with `List.lookup`; all dicts
  built here have pairwise-distinct keys, so first-match lookup agrees with
  Python's last-wins insertion.
* `float` arithmetic is modelled over `ℚ`; `torch.sqrt`, irrational in
  general, is an explicit function parameter `sqrtFn` and each theorem
  assumes only the property of the real square root it needs.
* Random draws (`torch.rand`, `torch.randint`) are injected as explicit
  arguments, as the spec requires for deterministic testing: `get_target`
  receives the drawn window size, `subsample_words` a per-position draw.
-/

namespace DataProcessing

/-- First-occurrence deduplication: the key order of a Python
`collections.Counter` (insertion order of first occurrences). -/
def pyDedup : List String → List String
  | [] => []
  | w :: ws => w :: (pyDedup ws).filter (fun v => v ≠ w)

/-- Python `Counter(words)` as an association list in Python key order:
each distinct word paired with its number of occurrences. -/
def word_counts (words : List String) : List (String × ℕ) :=
  (pyDedup words).map (fun w => (w, words.count w))

/-- Model of `word_counts.most_common()`: the counter items sorted by descending
count (ties in an unspecified order, here the stable merge-sort order). -/
def most_common (words : List String) : List (String × ℕ) :=
  (word_counts words).mergeSort (fun a b => decide (b.2 ≤ a.2))

/-- Model of `create_lookup_tables(words)`: enumerate the sorted vocabulary and build
the two dictionaries `vocab_to_int` (word ↦ rank) and `int_to_vocab`
(rank ↦ word), returned in that order. -/
def create_lookup_tables (words : List String) :
    List (String × ℕ) × List (ℕ × String) :=
  let sorted_vocab := most_common words
  let int_to_vocab := sorted_vocab.enum.map (fun p => (p.1, p.2.1))
  let vocab_to_int := sorted_vocab.enum.map (fun p => (p.2.1, p.1))
  (vocab_to_int, int_to_vocab)

theorem mem_pyDedup {a : String} : ∀ {l : List String}, a ∈ pyDedup l ↔ a ∈ l
  | [] => by simp [pyDedup]
  | b :: t => by
    by_cases hab : a = b
    · subst hab; simp [pyDedup]
    · simp [pyDedup, List.mem_filter, @mem_pyDedup a t, hab]

theorem nodup_pyDedup : ∀ (l : List String), (pyDedup l).Nodup
  | [] => by simp [pyDedup]
  | b :: t => by
    simp only [pyDedup, List.nodup_cons]
    refine ⟨fun hmem => ?_, (nodup_pyDedup t).filter _⟩
    exact absurd (List.of_mem_filter hmem) (by simp)

theorem pyDedup_ne_nil {l : List String} (h : l ≠ []) : pyDedup l ≠ [] := by
  cases l with
  | nil => exact absurd rfl h
  | cons b t => simp [pyDedup]

theorem pyDedup_toFinset (l : List String) :
    (pyDedup l).toFinset = l.toFinset := by
  ext a; simp [List.mem_toFinset, mem_pyDedup]

/-- Looking up rank `k + i` in the `int_to_vocab` dictionary built from the
enumeration of the sorted vocabulary returns the word at position `i`. -/
theorem lookup_enumFrom_rank :
    ∀ (l : List (String × ℕ)) (k i : ℕ),
      ((l.enumFrom k).map (fun p => (p.1, p.2.1))).lookup (k + i) =
        (l.get? i).map Prod.fst := by
  intro l
  induction l with
  | nil => intro k i; simp [List.enumFrom]
  | cons b t ih =>
    intro k i
    cases i with
    | zero => simp [List.enumFrom, List.lookup]
    | succ j =>
      have h2 : k + (j + 1) = (k + 1) + j := by omega
      have h1 : ((k + 1) + j == k) = false := by
        simp only [beq_eq_false_iff_ne, ne_eq]; omega
      simp only [List.enumFrom, List.map_cons, List.lookup, h2, h1, ih,
        List.get?_cons_succ]

/-- Looking up a vocabulary word in the `vocab_to_int` dictionary built from
the enumeration of the sorted vocabulary returns the word's position. -/
theorem lookup_enumFrom_word :
    ∀ (l : List (String × ℕ)) (k : ℕ) (w : String),
      w ∈ l.map Prod.fst →
      ∃ j, j < l.length ∧
        ((l.enumFrom k).map (fun p => (p.2.1, p.1))).lookup w = some (k + j) ∧
        (l.get? j).map Prod.fst = some w := by
  intro l
  induction l with
  | nil => intro k w hw; simp at hw
  | cons b t ih =>
    intro k w hw
    by_cases hb : w = b.1
    · refine ⟨0, by simp, ?_, by simp [hb]⟩
      subst hb
      simp [List.enumFrom, List.lookup]
    · have hmem : w ∈ t.map Prod.fst := by
        rcases List.mem_cons.mp hw with h | h
        · exact absurd h hb
        · exact h
      obtain ⟨j, hj, hlook, hget⟩ := ih (k + 1) w hmem
      refine ⟨j + 1, by simp only [List.length_cons]; omega, ?_,
        by simpa using hget⟩
      have hbeq : (w == b.1) = false := by
        simp only [beq_eq_false_iff_ne, ne_eq]; exact hb
      have h2 : (k + 1) + j = k + (j + 1) := by omega
      simp only [List.enumFrom, List.map_cons, List.lookup, hbeq]
      rw [← h2]; exact hlook

/-- The keys of `vocab_to_int` are the words of the sorted vocabulary. -/
theorem vocab_to_int_keys (words : List String) :
    (create_lookup_tables words).1.map Prod.fst =
      (most_common words).map Prod.fst := by
  show ((most_common words).enum.map
      (fun p => (p.2.1, p.1))).map Prod.fst = _
  rw [List.map_map]
  have h : (Prod.fst ∘ fun p : ℕ × (String × ℕ) => (p.2.1, p.1)) =
      (Prod.fst ∘ Prod.snd) := rfl
  rw [h, ← List.map_map, List.enum_map_snd]

/-- The sorted vocabulary is a permutation of the counter items. -/
theorem most_common_perm (words : List String) :
    (most_common words).Perm (word_counts words) :=
  List.mergeSort_perm _ _

/-- The words of the sorted vocabulary are a permutation of the distinct
words of the input, in particular pairwise distinct. -/
theorem most_common_fst_perm (words : List String) :
    ((most_common words).map Prod.fst).Perm (pyDedup words) := by
  have h1 := (most_common_perm words).map Prod.fst
  have h2 : (word_counts words).map Prod.fst = pyDedup words := by
    rw [word_counts, List.map_map]
    have h : (Prod.fst ∘ fun w : String => (w, List.count w words)) = id := rfl
    rw [h, List.map_id]
  rw [h2] at h1; exact h1

theorem most_common_fst_nodup (words : List String) :
    ((most_common words).map Prod.fst).Nodup :=
  ((most_common_fst_perm words).nodup_iff).mpr (nodup_pyDedup words)

theorem mem_most_common_fst {words : List String} {w : String}
    (hw : w ∈ words) : w ∈ (most_common words).map Prod.fst :=
  ((most_common_fst_perm words).mem_iff).mpr (mem_pyDedup.mpr hw)

theorem most_common_ne_nil {words : List String} (hw : words ≠ []) :
    most_common words ≠ [] := by
  intro hnil
  have hlen := (most_common_perm words).length_eq
  rw [hnil] at hlen
  have : pyDedup words = [] := by
    rw [word_counts, List.length_map] at hlen
    exact List.length_eq_zero.mp hlen.symm
  exact pyDedup_ne_nil hw this

theorem mem_most_common_count {words : List String} {p : String × ℕ}
    (hp : p ∈ most_common words) : p.2 = words.count p.1 := by
  have hp' : p ∈ word_counts words := (most_common_perm words).mem_iff.mp hp
  obtain ⟨w, _, rfl⟩ := List.mem_map.mp hp'
  rfl

theorem most_common_pairwise (words : List String) :
    List.Pairwise (fun p q : String × ℕ => q.2 ≤ p.2) (most_common words) := by
  have h := @List.sorted_mergeSort (String × ℕ)
    (fun a b => decide (b.2 ≤ a.2))
    (fun a b c hab hbc => by
      simp only [decide_eq_true_eq] at *; exact le_trans hbc hab)
    (fun a b => by
      simp only [Bool.or_eq_true, decide_eq_true_eq]; exact le_total b.2 a.2)
    (word_counts words)
  exact h.imp (fun hab => of_decide_eq_true hab)

/-- C1: for every non-empty token list (witnessed by a word `w` occurring in
it), the two tables returned by `create_lookup_tables` are exact inverses:
looking up `w` in `vocab_to_int` yields an index that `int_to_vocab` maps
back to `w`, and `w` appears exactly once among the keys of `vocab_to_int`. -/
theorem create_lookup_tables_inverse (words : List String) (w : String)
    (hw : w ∈ words) :
    (∃ i, ((create_lookup_tables words).1).lookup w = some i ∧
      ((create_lookup_tables words).2).lookup i = some w) ∧
    ((create_lookup_tables words).1.map Prod.fst).count w = 1 := by
  have hv : w ∈ (most_common words).map Prod.fst := mem_most_common_fst hw
  obtain ⟨j, hj, hlook, hget⟩ := lookup_enumFrom_word (most_common words) 0 w hv
  constructor
  · refine ⟨j, ?_, ?_⟩
    · show (((most_common words).enumFrom 0).map
        (fun p => (p.2.1, p.1))).lookup w = some j
      simpa using hlook
    · show (((most_common words).enumFrom 0).map
        (fun p => (p.1, p.2.1))).lookup j = some w
      have := lookup_enumFrom_rank (most_common words) 0 j
      simp only [Nat.zero_add] at this
      rw [this, hget]
  · rw [vocab_to_int_keys]
    exact List.count_eq_one_of_mem (most_common_fst_nodup words) hv

/-- Witness for C1: the lookup tables built from `["a", "b", "a"]` round-trip
the word `"a"`, which appears exactly once as a key. -/
theorem create_lookup_tables_inverse_witness :
    (∃ i, ((create_lookup_tables ["a", "b", "a"]).1).lookup "a" = some i ∧
      ((create_lookup_tables ["a", "b", "a"]).2).lookup i = some "a") ∧
    ((create_lookup_tables ["a", "b", "a"]).1.map Prod.fst).count "a" = 1 :=
  create_lookup_tables_inverse ["a", "b", "a"] "a" (by simp)

/-- C2 counterexample: on the empty token list, `create_lookup_tables` does
not fail; it returns normally, with two empty dictionaries. -/
theorem create_lookup_tables_nil_returns :
    create_lookup_tables [] = ([], []) := by
  simp [create_lookup_tables, most_common, word_counts, pyDedup]

/-- C2 amended: for every empty token sequence, `create_lookup_tables`
returns a value — the pair of empty lookup tables — rather than signalling
an `EmptyInputError`: the code has no error branch. -/
theorem create_lookup_tables_empty_total (words : List String)
    (hw : words = []) : create_lookup_tables words = ([], []) := by
  subst hw
  simp [create_lookup_tables, most_common, word_counts, pyDedup]

/-- Witness for the amended C2 at the concrete empty input. -/
theorem create_lookup_tables_empty_total_witness :
    ([] : List String) = [] ∧ create_lookup_tables [] = ([], []) :=
  ⟨rfl, create_lookup_tables_empty_total [] rfl⟩

/-- C5: on a non-empty token list, index 0 of `int_to_vocab` maps to a word
of maximal occurrence count, the indices of `int_to_vocab` are exactly
`0, 1, …, |vocab| - 1` in order, and the sorted vocabulary carries true
occurrence counts in descending order. -/
theorem create_lookup_tables_rank_order (words : List String)
    (hw : words ≠ []) :
    (∃ w0, ((create_lookup_tables words).2).lookup 0 = some w0 ∧
      ∀ w ∈ words, words.count w ≤ words.count w0) ∧
    (create_lookup_tables words).2.map Prod.fst =
      List.range (most_common words).length ∧
    List.Pairwise (fun p q : String × ℕ => q.2 ≤ p.2) (most_common words) ∧
    ∀ p ∈ most_common words, p.2 = words.count p.1 := by
  obtain ⟨p0, rest, hcons⟩ : ∃ p0 rest, most_common words = p0 :: rest := by
    cases hmc : most_common words with
    | nil => exact absurd hmc (most_common_ne_nil hw)
    | cons a l => exact ⟨a, l, rfl⟩
  refine ⟨⟨p0.1, ?_, ?_⟩, ?_, most_common_pairwise words,
    fun p hp => mem_most_common_count hp⟩
  · show (((most_common words).enumFrom 0).map
      (fun p => (p.1, p.2.1))).lookup 0 = some p0.1
    have := lookup_enumFrom_rank (most_common words) 0 0
    simp only [Nat.zero_add] at this
    rw [this, hcons]
    rfl
  · intro w hwmem
    have hmem : (w, words.count w) ∈ most_common words :=
      (most_common_perm words).mem_iff.mpr
        (List.mem_map.mpr ⟨w, mem_pyDedup.mpr hwmem, rfl⟩)
    have hp0 : p0.2 = words.count p0.1 :=
      mem_most_common_count (by rw [hcons]; exact List.mem_cons_self _ _)
    rw [hcons] at hmem
    have hpair := most_common_pairwise words
    rw [hcons, List.pairwise_cons] at hpair
    rcases List.mem_cons.mp hmem with heq | hmemr
    · have : words.count w = p0.2 := by rw [← heq]
      omega
    · have := hpair.1 (w, words.count w) hmemr
      omega
  · show ((most_common words).enum.map (fun p => (p.1, p.2.1))).map
      Prod.fst = _
    rw [List.map_map]
    have h : (Prod.fst ∘ fun p : ℕ × (String × ℕ) => (p.1, p.2.1)) =
        Prod.fst := rfl
    rw [h, List.enum_map_fst]

/-- Witness for C5: on `["b", "a", "a"]` the index 0 decodes to `"a"`, the
most frequent word. -/
theorem create_lookup_tables_rank_order_witness :
    (["b", "a", "a"] : List String) ≠ [] ∧
    ((∃ w0, ((create_lookup_tables ["b", "a", "a"]).2).lookup 0 = some w0 ∧
      ∀ w ∈ ["b", "a", "a"],
        List.count w ["b", "a", "a"] ≤ List.count w0 ["b", "a", "a"]) ∧
    (create_lookup_tables ["b", "a", "a"]).2.map Prod.fst =
      List.range (most_common ["b", "a", "a"]).length ∧
    List.Pairwise (fun p q : String × ℕ => q.2 ≤ p.2)
      (most_common ["b", "a", "a"]) ∧
    ∀ p ∈ most_common ["b", "a", "a"],
      p.2 = List.count p.1 ["b", "a", "a"]) :=
  ⟨by simp, create_lookup_tables_rank_order ["b", "a", "a"] (by simp)⟩

/-- The frequency table of `subsample_words`: each word's occurrence count
divided by the total token count (`count / total_words`). -/
def freqsOf (words : List String) : String → ℚ :=
  fun w => (words.count w : ℚ) / (words.length : ℚ)

/-- Discard probability `prob_discard[word] = 1 - sqrt(threshold / freq)`
(Mikolov subsampling);
`sqrtFn` stands for `torch.sqrt`. -/
def prob_discard (sqrtFn : ℚ → ℚ) (threshold freq : ℚ) : ℚ :=
  1 - sqrtFn (threshold / freq)

/-- Model of `subsample_words(words, vocab_to_int, threshold)`: compute the frequency
table, then keep each token whose per-position uniform draw `rand i` exceeds
its discard probability, emitting its integer code. The draws are injected
through `rand`, the square root through `sqrtFn`. -/
def subsample_words (sqrtFn : ℚ → ℚ) (words : List String)
    (vocab_to_int : String → ℕ) (threshold : ℚ) (rand : ℕ → ℚ) :
    List ℕ × (String → ℚ) :=
  let freqs := freqsOf words
  let train_words := (words.enum.filter (fun p =>
      decide (prob_discard sqrtFn threshold (freqs p.2) < rand p.1))).map
    (fun p => vocab_to_int p.2)
  (train_words, freqs)

theorem freqsOf_pos {words : List String} {w : String} (hw : w ∈ words) :
    0 < freqsOf words w := by
  have hc : 0 < words.count w := List.count_pos_iff.mpr hw
  have hl : 0 < words.length := List.length_pos.mpr (List.ne_nil_of_mem hw)
  have hc' : (0 : ℚ) < (words.count w : ℚ) := by exact_mod_cast hc
  have hl' : (0 : ℚ) < (words.length : ℚ) := by exact_mod_cast hl
  exact div_pos hc' hl'

/-- C4: a token whose relative frequency lies strictly below the threshold is
always kept: its discard probability is negative, so every uniform draw in
`[0, 1)` exceeds it and its integer code is emitted into the training list. -/
theorem subsample_words_keeps_rare (sqrtFn : ℚ → ℚ) (words : List String)
    (vti : String → ℕ) (threshold : ℚ) (rand : ℕ → ℚ) (w : String) (i : ℕ)
    (hs : ∀ q : ℚ, 1 < q → 1 < sqrtFn q)
    (hrand : ∀ j, 0 ≤ rand j)
    (hget : words.get? i = some w)
    (hfreq : freqsOf words w < threshold) :
    prob_discard sqrtFn threshold (freqsOf words w) < 0 ∧
    vti w ∈ (subsample_words sqrtFn words vti threshold rand).1 := by
  have hw : w ∈ words := List.get?_mem hget
  have hfpos : 0 < freqsOf words w := freqsOf_pos hw
  have hdiv : 1 < threshold / freqsOf words w := (one_lt_div hfpos).mpr hfreq
  have hprob : prob_discard sqrtFn threshold (freqsOf words w) < 0 := by
    have := hs _ hdiv
    unfold prob_discard
    linarith
  refine ⟨hprob, ?_⟩
  show vti w ∈ (words.enum.filter (fun p =>
      decide (prob_discard sqrtFn threshold (freqsOf words p.2) < rand p.1))).map
    (fun p => vti p.2)
  refine List.mem_map.mpr ⟨(i, w), ?_, rfl⟩
  refine List.mem_filter.mpr ⟨?_, ?_⟩
  · exact List.mem_enum_iff_get?.mpr hget
  · exact decide_eq_true (lt_of_lt_of_le hprob (hrand i))

/-- Witness for C4: with the identity standing in for `sqrt`, zero draws and
threshold 1, the rare word `"a"` of `["a", "b"]` is always kept. -/
theorem subsample_words_keeps_rare_witness :
    (∀ q : ℚ, 1 < q → 1 < (fun x : ℚ => x) q) ∧
    (∀ j : ℕ, (0 : ℚ) ≤ (fun _ : ℕ => (0 : ℚ)) j) ∧
    (["a", "b"].get? 0 = some "a") ∧
    freqsOf ["a", "b"] "a" < 1 ∧
    (prob_discard (fun x : ℚ => x) 1 (freqsOf ["a", "b"] "a") < 0 ∧
      (fun _ : String => 0) "a" ∈
        (subsample_words (fun x : ℚ => x) ["a", "b"] (fun _ => 0) 1
          (fun _ => 0)).1) :=
  ⟨fun _ h => h, fun _ => le_refl 0, rfl,
    by simp [freqsOf, List.count_cons]; norm_num,
    subsample_words_keeps_rare (fun x => x) ["a", "b"] (fun _ => 0) 1
      (fun _ => 0) "a" 0 (fun _ h => h) (fun _ => le_refl 0) rfl
      (by simp [freqsOf, List.count_cons]; norm_num)⟩

/-- C7: every entry of the frequency table returned by `subsample_words` is
strictly positive — the counts come from words observed in the input — so
the divisor of `threshold / freq` is never zero and a zero-frequency
(`DivisionByZeroError`) condition is unreachable. -/
theorem subsample_words_freq_pos (sqrtFn : ℚ → ℚ) (words : List String)
    (vti : String → ℕ) (threshold : ℚ) (rand : ℕ → ℚ) (w : String)
    (hw : w ∈ words) :
    0 < (subsample_words sqrtFn words vti threshold rand).2 w ∧
    (subsample_words sqrtFn words vti threshold rand).2 w ≠ 0 := by
  have h : 0 < freqsOf words w := freqsOf_pos hw
  exact ⟨h, ne_of_gt h⟩

/-- Witness for C7 on the one-word corpus `["a"]`. -/
theorem subsample_words_freq_pos_witness :
    ("a" ∈ ["a"]) ∧
    (0 < (subsample_words (fun x : ℚ => x) ["a"] (fun _ => 0) 1
        (fun _ => 0)).2 "a" ∧
      (subsample_words (fun x : ℚ => x) ["a"] (fun _ => 0) 1
        (fun _ => 0)).2 "a" ≠ 0) :=
  ⟨by simp, subsample_words_freq_pos (fun x => x) ["a"] (fun _ => 0) 1
    (fun _ => 0) "a" (by simp)⟩

/-- C9: on a non-empty token list the frequency table of `subsample_words`
assigns `count / total` to each word, and its values summed over the
(deduplicated) vocabulary equal exactly 1. -/
theorem subsample_words_freqs_sum_one (sqrtFn : ℚ → ℚ) (words : List String)
    (vti : String → ℕ) (threshold : ℚ) (rand : ℕ → ℚ) (hw : words ≠ []) :
    ((pyDedup words).map
      (fun w => (subsample_words sqrtFn words vti threshold rand).2 w)).sum
      = 1 := by
  show ((pyDedup words).map (fun w => freqsOf words w)).sum = 1
  rw [Finset.sum_list_map_count]
  have hcount : ∀ m ∈ (pyDedup words).toFinset,
      (pyDedup words).count m • freqsOf words m = freqsOf words m := by
    intro m hm
    rw [List.count_eq_one_of_mem (nodup_pyDedup words)
      (List.mem_toFinset.mp hm), one_smul]
  rw [Finset.sum_congr rfl hcount, pyDedup_toFinset]
  show ∑ m ∈ words.toFinset, (words.count m : ℚ) / (words.length : ℚ) = 1
  rw [← Finset.sum_div]
  have hsum : ∑ m ∈ words.toFinset, (words.count m : ℚ) =
      (words.length : ℚ) := by
    rw [← Nat.cast_sum]
    have h := Multiset.toFinset_sum_count_eq (words : Multiset String)
    norm_cast
    simpa using h
  rw [hsum, div_self]
  have : 0 < words.length := List.length_pos.mpr hw
  exact_mod_cast Nat.pos_iff_ne_zero.mp this

/-- Witness for C9 on the corpus `["a", "b", "a"]`. -/
theorem subsample_words_freqs_sum_one_witness :
    (["a", "b", "a"] : List String) ≠ [] ∧
    ((pyDedup ["a", "b", "a"]).map
      (fun w => (subsample_words (fun x : ℚ => x) ["a", "b", "a"]
        (fun _ => 0) 1 (fun _ => 0)).2 w)).sum = 1 :=
  ⟨by simp, subsample_words_freqs_sum_one (fun x => x) ["a", "b", "a"]
    (fun _ => 0) 1 (fun _ => 0) (by simp)⟩

/-- The `back_words` list of `get_target`:
`[words[idx - n] for n in range(rand_window_size, 0, -1) if (idx - n) >= 0]`.
`range(R, 0, -1)` is `[R, …, 1]`; under the Python guard `(idx - n) >= 0`
(here `n ≤ idx`) the access `words[idx - n]` is `words.get? (idx - n)`,
always `some` for a valid target index. -/
def back_words {α : Type} (words : List α) (idx : ℕ) (R : ℕ) : List α :=
  ((List.range' 1 R).reverse).filterMap
    (fun n => if n ≤ idx then words.get? (idx - n) else none)

/-- The `front_words` list of `get_target`:
`[words[idx + n] for n in range(1, rand_window_size + 1) if (idx + n) < len(words)]`. -/
def front_words {α : Type} (words : List α) (idx : ℕ) (R : ℕ) : List α :=
  (List.range' 1 R).filterMap
    (fun n => if idx + n < words.length then words.get? (idx + n) else none)

/-- Model of `get_target(words, idx, window_size)` with `R` the injected draw of
`torch.randint(1, window_size + 1, (1,))`: back context then front context. -/
def get_target {α : Type} (words : List α) (idx : ℕ) (R : ℕ) : List α :=
  back_words words idx R ++ front_words words idx R

/-- C6: at `idx = 0` the back-word list of `get_target` is empty, and with a
drawn window size `R` in `[1, W]` every returned context word sits at a
position within distance `1 … W` of the target. -/
theorem get_target_boundary {α : Type} (words : List α) (W R : ℕ)
    (hw : words ≠ []) (hR1 : 1 ≤ R) (hRW : R ≤ W) :
    back_words words 0 R = [] ∧
    ∀ x ∈ get_target words 0 R,
      ∃ j, 1 ≤ j ∧ j ≤ W ∧ words.get? j = some x := by
  have hback : back_words words 0 R = [] := by
    apply List.filterMap_eq_nil.mpr
    intro n hn
    obtain ⟨i, _, rfl⟩ := List.mem_range'.mp (List.mem_reverse.mp hn)
    simp
  refine ⟨hback, ?_⟩
  intro x hx
  rw [get_target, hback, List.nil_append] at hx
  obtain ⟨n, hn, hfn⟩ := List.mem_filterMap.mp hx
  obtain ⟨i, hi, rfl⟩ := List.mem_range'.mp hn
  by_cases hlt : 0 + (1 + 1 * i) < words.length
  · rw [if_pos hlt] at hfn
    exact ⟨1 + 1 * i, by omega, by omega, by simpa using hfn⟩
  · rw [if_neg hlt] at hfn
    exact absurd hfn (by simp)

/-- Witness for C6 on `["a", "b", "c"]` with `W = 2`, drawn size `R = 1`. -/
theorem get_target_boundary_witness :
    (["a", "b", "c"] : List String) ≠ [] ∧ 1 ≤ 1 ∧ 1 ≤ 2 ∧
    (back_words ["a", "b", "c"] 0 1 = [] ∧
      ∀ x ∈ get_target ["a", "b", "c"] 0 1,
        ∃ j, 1 ≤ j ∧ j ≤ 2 ∧ ["a", "b", "c"].get? j = some x) :=
  ⟨by simp, le_refl 1, by omega,
    get_target_boundary ["a", "b", "c"] 2 1 (by simp) (le_refl 1) (by omega)⟩

/-- C10: with `window_size = 1` the drawn size is forced to 1, so any two
calls of `get_target` agree, and the result is `[words[idx-1]]` (omitted at
`idx = 0`) followed by `[words[idx+1]]` (omitted at the last index). -/
theorem get_target_window_one {α : Type} (words : List α) (idx R₁ R₂ : ℕ)
    (hlen : 2 ≤ words.length) (hidx : idx < words.length)
    (h₁ : 1 ≤ R₁ ∧ R₁ ≤ 1) (h₂ : 1 ≤ R₂ ∧ R₂ ≤ 1) :
    get_target words idx R₁ = get_target words idx R₂ ∧
    get_target words idx R₁ =
      (if 1 ≤ idx then (words.get? (idx - 1)).toList else []) ++
        (words.get? (idx + 1)).toList := by
  obtain rfl : R₁ = 1 := le_antisymm h₁.2 h₁.1
  obtain rfl : R₂ = 1 := le_antisymm h₂.2 h₂.1
  refine ⟨rfl, ?_⟩
  have hsingle : ∀ (f : ℕ → Option α), List.filterMap f [1] = (f 1).toList := by
    intro f
    cases h : f 1 <;> simp [List.filterMap_cons, h]
  have hr : List.range' 1 1 = [1] := rfl
  rw [get_target, back_words, front_words, hr]
  rw [show ([1] : List ℕ).reverse = [1] from rfl, hsingle, hsingle]
  congr 1
  · by_cases hi : 1 ≤ idx
    · rw [if_pos hi, if_pos hi]
    · rw [if_neg hi, if_neg hi]
      rfl
  · by_cases hf : idx + 1 < words.length
    · rw [if_pos hf]
    · rw [if_neg hf]
      have h0 : words.get? (idx + 1) = none := List.get?_eq_none.mpr (by omega)
      rw [h0]

/-- Witness for C10 on `["a", "b", "c"]` at `idx = 1`. -/
theorem get_target_window_one_witness :
    2 ≤ (["a", "b", "c"] : List String).length ∧ 1 < 3 ∧
    (get_target ["a", "b", "c"] 1 1 = get_target ["a", "b", "c"] 1 1 ∧
      get_target ["a", "b", "c"] 1 1 =
        (if 1 ≤ 1 then (["a", "b", "c"].get? 0).toList else []) ++
          (["a", "b", "c"].get? 2).toList) :=
  ⟨by simp, by omega,
    get_target_window_one ["a", "b", "c"] 1 1 1 (by simp) (by simp)
      ⟨le_refl 1, le_refl 1⟩ ⟨le_refl 1, le_refl 1⟩⟩

/-- The chunking loop of `get_batches`:
`words[idx : idx + batch_size]` for `idx in range(0, len(words), batch_size)`
(one `take`/`drop` step per loop iteration). A zero batch size, on which
Python's `range` raises, yields no chunks. -/
def batch_chunks {α : Type} (batch_size : ℕ) : List α → List (List α)
  | [] => []
  | w :: ws =>
    if hb : batch_size = 0 then []
    else (w :: ws).take batch_size ::
      batch_chunks batch_size ((w :: ws).drop batch_size)
termination_by words => words.length
decreasing_by
  simp only [List.length_drop, List.length_cons]
  omega

/-- One yielded `(inputs_list, targets_list)` pair of `get_batches`: for each
position of the chunk, the current word is appended once per context word
returned by `get_target` on the chunk, in lockstep with that context word.
`randR` injects the window size drawn at each position. -/
def batch_pairs {α : Type} (chunk : List α) (randR : ℕ → ℕ) :
    List α × List α :=
  let pairs := chunk.enum.flatMap (fun p =>
    (get_target chunk p.1 (randR p.1)).map (fun t => (p.2, t)))
  (pairs.map Prod.fst, pairs.map Prod.snd)

/-- Model of `get_batches(words, batch_size, window_size)`: one `(inputs, targets)`
batch per chunk, in corpus order. `window_size` enters only through the
injected draws `randR` (the results of `torch.randint(1, window_size + 1)`
at each position). -/
def get_batches {α : Type} (words : List α) (batch_size : ℕ)
    (randR : ℕ → ℕ) : List (List α × List α) :=
  (batch_chunks batch_size words).map (fun chunk => batch_pairs chunk randR)

theorem batch_chunks_ne_nil {α : Type} {batch_size : ℕ} {words : List α}
    (hw : words ≠ []) (hb : batch_size ≠ 0) :
    batch_chunks batch_size words ≠ [] := by
  obtain ⟨w, ws, rfl⟩ := List.exists_cons_of_ne_nil hw
  rw [batch_chunks, dif_neg hb]
  exact List.cons_ne_nil _ _

theorem batch_chunks_join {α : Type} (batch_size : ℕ)
    (hb : batch_size ≠ 0) :
    ∀ (n : ℕ) (words : List α), words.length ≤ n →
      (batch_chunks batch_size words).flatten = words := by
  intro n
  induction n with
  | zero =>
    intro words hlen
    have hnil : words = [] := List.length_eq_zero.mp (Nat.le_zero.mp hlen)
    rw [hnil, batch_chunks, List.flatten_nil]
  | succ m ih =>
    intro words hlen
    by_cases hw : words = []
    · rw [hw, batch_chunks, List.flatten_nil]
    · obtain ⟨w, ws, rfl⟩ := List.exists_cons_of_ne_nil hw
      rw [batch_chunks, dif_neg hb, List.flatten_cons]
      have hdrop : ((w :: ws).drop batch_size).length ≤ m := by
        rw [List.length_drop, List.length_cons]
        rw [List.length_cons] at hlen
        omega
      rw [ih ((w :: ws).drop batch_size) hdrop, List.take_append_drop]

theorem batch_chunks_getLast {α : Type} (batch_size : ℕ)
    (hb : batch_size ≠ 0) :
    ∀ (n : ℕ) (words : List α), words.length ≤ n →
      words.length % batch_size ≠ 0 →
      ∃ c, (batch_chunks batch_size words).getLast? = some c ∧
        c.length = words.length % batch_size := by
  intro n
  induction n with
  | zero =>
    intro words hlen hmod
    have hnil : words = [] := List.length_eq_zero.mp (Nat.le_zero.mp hlen)
    rw [hnil] at hmod
    exact absurd (Nat.zero_mod batch_size) hmod
  | succ m ih =>
    intro words hlen hmod
    by_cases hw : words = []
    · rw [hw] at hmod
      exact absurd (Nat.zero_mod batch_size) hmod
    · obtain ⟨w, ws, rfl⟩ := List.exists_cons_of_ne_nil hw
      set words := w :: ws with hwords
      rw [batch_chunks, dif_neg hb, ← hwords]
      by_cases hd : words.drop batch_size = []
      · have hsmall : words.length ≤ batch_size := by
          have := List.length_eq_zero.mpr hd
          rw [List.length_drop] at this
          omega
        have hlt : words.length < batch_size := by
          rcases Nat.lt_or_ge words.length batch_size with h | h
          · exact h
          · have : words.length = batch_size := le_antisymm hsmall h
            rw [this, Nat.mod_self] at hmod
            exact absurd rfl hmod
        refine ⟨words.take batch_size, ?_, ?_⟩
        · rw [hd, batch_chunks]
          rfl
        · rw [List.length_take, Nat.mod_eq_of_lt hlt]
          omega
      · have hlong : batch_size < words.length := by
          have h1 := List.length_pos.mpr hd
          rw [List.length_drop] at h1
          omega
        have hdm : (words.drop batch_size).length ≤ m := by
          rw [List.length_drop]
          have h1 : 0 < words.length := List.length_pos.mpr hw
          omega
        have hdmod : (words.drop batch_size).length % batch_size ≠ 0 := by
          rw [List.length_drop, ← Nat.mod_eq_sub_mod (by omega)]
          exact hmod
        obtain ⟨c, hc, hclen⟩ := ih (words.drop batch_size) hdm hdmod
        refine ⟨c, ?_, ?_⟩
        · obtain ⟨r, rs, hrs⟩ : ∃ r rs,
              batch_chunks batch_size (words.drop batch_size) = r :: rs := by
            cases hbc : batch_chunks batch_size (words.drop batch_size) with
            | nil => exact absurd hbc (batch_chunks_ne_nil hd hb)
            | cons r rs => exact ⟨r, rs, rfl⟩
          rw [hrs, List.getLast?_cons_cons, ← hrs, hc]
        · rw [hclen, List.length_drop, ← Nat.mod_eq_sub_mod (by omega)]

/-- C3: when the corpus length is not a multiple of the batch size
`B ≥ 1`, the chunking of `get_batches` ends with a short chunk of
`len % B < B` tokens, that chunk still produces the final yielded batch,
and no token is dropped (the chunks concatenate back to the corpus). -/
theorem get_batches_last_partial {α : Type} (words : List α) (B : ℕ)
    (randR : ℕ → ℕ) (hB : 1 ≤ B) (hmod : words.length % B ≠ 0) :
    ∃ c, (batch_chunks B words).getLast? = some c ∧
      c.length = words.length % B ∧ 0 < c.length ∧ c.length < B ∧
      (get_batches words B randR).getLast? = some (batch_pairs c randR) ∧
      (batch_chunks B words).flatten = words := by
  have hb : B ≠ 0 := by omega
  obtain ⟨c, hc, hclen⟩ :=
    batch_chunks_getLast B hb words.length words le_rfl hmod
  refine ⟨c, hc, hclen, ?_, ?_, ?_, ?_⟩
  · rw [hclen]
    omega
  · rw [hclen]
    exact Nat.mod_lt _ (by omega)
  · rw [get_batches, List.getLast?_map, hc]
    rfl
  · exact batch_chunks_join B hb words.length words le_rfl

/-- Witness for C3: corpus `[10, 20, 30]` with batch size 2 ends in the
short chunk `[30]`. -/
theorem get_batches_last_partial_witness :
    1 ≤ 2 ∧ ([10, 20, 30] : List ℕ).length % 2 ≠ 0 ∧
    (∃ c, (batch_chunks 2 ([10, 20, 30] : List ℕ)).getLast? = some c ∧
      c.length = ([10, 20, 30] : List ℕ).length % 2 ∧ 0 < c.length ∧
      c.length < 2 ∧
      (get_batches ([10, 20, 30] : List ℕ) 2 (fun _ => 1)).getLast? =
        some (batch_pairs c (fun _ => 1)) ∧
      (batch_chunks 2 ([10, 20, 30] : List ℕ)).flatten = [10, 20, 30]) :=
  ⟨by omega, by simp,
    get_batches_last_partial [10, 20, 30] 2 (fun _ => 1) (by omega) (by simp)⟩

/-- The L2 norm of an embedding row, `row.norm()`: square root of the sum of
squares, with `sqrtFn` standing for the (irrational) square root. -/
def l2norm (sqrtFn : ℚ → ℚ) (v : List ℚ) : ℚ :=
  sqrtFn ((v.map (fun x => x * x)).sum)

/-- Row-wise normalization `w / w.norm(dim=1, keepdim=True)`: every entry of
a row is divided by that row's norm. No zero-norm check is performed. -/
def normalize_rows (sqrtFn : ℚ → ℚ) (m : List (List ℚ)) : List (List ℚ) :=
  m.map (fun row => row.map (fun x => x / l2norm sqrtFn row))

/-- Dot product of two equal-length rows (one entry of `torch.matmul`). -/
def dot (a b : List ℚ) : ℚ :=
  (List.zipWith (fun x y => x * y) a b).sum

/-- Model of `cosine_similarity(embedding, valid_size, valid_window)`: the embedding
matrix is `weight` (list of rows); the random draw
`torch.randint(0, valid_window, (valid_size,))` is injected as
`valid_examples`. Looks up the sampled rows, normalizes both them and the
full matrix, and returns the sampled indices with the full dot-product
matrix. There is no error branch of any kind. -/
def cosine_similarity (sqrtFn : ℚ → ℚ) (weight : List (List ℚ))
    (valid_examples : List ℕ) : List ℕ × List (List ℚ) :=
  let valid_vectors := valid_examples.map (fun i => weight.getD i [])
  let embedding_weights := normalize_rows sqrtFn weight
  let valid_norm := normalize_rows sqrtFn valid_vectors
  let similarities := valid_norm.map (fun a =>
    embedding_weights.map (fun b => dot a b))
  (valid_examples, similarities)

/-- C8 counterexample: on an embedding whose first row is the zero vector,
`cosine_similarity` does not fail — it returns the sampled indices and a
similarity matrix (the zero row is divided by its zero norm; in exact
arithmetic the quotient is 0, in floating point it is non-finite, and in
neither case is an error raised). -/
theorem cosine_similarity_zero_row_returns :
    cosine_similarity (fun q => q) [[0, 0], [1, 0]] [0] =
      ([0], [[0, 0]]) := by
  simp [cosine_similarity, normalize_rows, l2norm, dot]

/-- C8 amended: `cosine_similarity` contains no zero-vector check: for every
embedding matrix — including any with zero rows — and every sample, it
returns the sampled indices unchanged together with a full
`valid_size × vocabulary_size` similarity matrix, rather than signalling a
`ZeroVectorError`. -/
theorem cosine_similarity_total (sqrtFn : ℚ → ℚ) (weight : List (List ℚ))
    (valid_examples : List ℕ) :
    (cosine_similarity sqrtFn weight valid_examples).1 = valid_examples ∧
    (cosine_similarity sqrtFn weight valid_examples).2.length =
      valid_examples.length ∧
    ∀ row ∈ (cosine_similarity sqrtFn weight valid_examples).2,
      row.length = weight.length := by
  refine ⟨rfl, ?_, ?_⟩
  · show ((normalize_rows sqrtFn
      (valid_examples.map (fun i => weight.getD i []))).map _).length = _
    rw [List.length_map, normalize_rows, List.length_map, List.length_map]
  · intro row hrow
    obtain ⟨a, _, rfl⟩ := List.mem_map.mp hrow
    rw [List.length_map, normalize_rows, List.length_map]

end DataProcessing
